import Mathlib

/-!
Shallow embedding of the saha adaptive string map (js2xxx/saha).

Sources embedded here:
* src/small.rs  — inline-key open-addressing engine (`SmallMap`, key buffer of
  `N` bytes padded with zeros, hash recomputed on resize),
* src/large.rs  — arena-key engine (`LargeMap`, exact key plus cached hash,
  minimum capacity 4, retrying `try_insert`),
* src/common.rs — the generic engine over a slot-data strategy (`CommonMap`),
* src/adaptive.rs — `KeyRef` classification, the `KeyRef` hash impl and the
  top-level dispatcher (`AdaptiveMap`).

Bytes are modelled as `Nat`, slices as `List Nat`, `u64` hashes as `Nat`
(the hash is only ever used through `% capacity`, so no wrapping arithmetic
is observable), and the `BuildHasher` as a pure function `List Nat → Nat`.
A Rust panic (`expect`, `unwrap`, `unreachable!`, out-of-bounds copy) is
modelled by an operation returning `none`; a normal return is `some`.
-/

set_option maxRecDepth 8000

namespace Saha

/-- Tri-state slot of every engine (`Slot` in small.rs / large.rs / common.rs;
`Deleted` is the tombstone). -/
inductive Slot (D : Type) where
  | empty
  | deleted
  | data (d : D)
deriving DecidableEq

def Slot.isData {D : Type} : Slot D → Bool
  | .data _ => true
  | _ => false

/-- Number of `Data` slots in a bucket. -/
def numData {D : Type} (bucket : List (Slot D)) : Nat :=
  bucket.countP Slot.isData

/-- The probe loop of `lookup_or_free`: linear probing from `hash % capacity`,
stopping at the first `Empty`, `Deleted`, or key-matching `Data` slot.
`i` is the probe step already taken, `fuel` the remaining steps; the wrappers
start with `fuel = bucket.length`, i.e. capacity-many steps. -/
def probeGoFree {D : Type} (keyOf : D → List Nat) (bucket : List (Slot D))
    (key : List Nat) (hash : Nat) : Nat → Nat → Option Nat
  | _, 0 => none
  | i, fuel + 1 =>
    match bucket.getD ((hash + i) % bucket.length) .empty with
    | .data d =>
      if keyOf d = key then some ((hash + i) % bucket.length)
      else probeGoFree keyOf bucket key hash (i + 1) fuel
    | _ => some ((hash + i) % bucket.length)

/-- `lookup_or_free` (small.rs:178, large.rs:172, common.rs:193): returns the
index of the first `Empty`, `Deleted`, or matching slot in probe order. -/
def probeLookupOrFree {D : Type} (keyOf : D → List Nat) (bucket : List (Slot D))
    (key : List Nat) (hash : Nat) : Option Nat :=
  probeGoFree keyOf bucket key hash 0 bucket.length

/-- The probe loop of plain `lookup`: stops with failure at the first `Empty`
slot, skips tombstones, succeeds on a key match. -/
def probeGoLookup {D : Type} (keyOf : D → List Nat) (bucket : List (Slot D))
    (key : List Nat) (hash : Nat) : Nat → Nat → Option Nat
  | _, 0 => none
  | i, fuel + 1 =>
    match bucket.getD ((hash + i) % bucket.length) .empty with
    | .empty => none
    | .data d =>
      if keyOf d = key then some ((hash + i) % bucket.length)
      else probeGoLookup keyOf bucket key hash (i + 1) fuel
    | .deleted => probeGoLookup keyOf bucket key hash (i + 1) fuel

/-- `lookup` (small.rs:163, large.rs:159, common.rs:180). -/
def probeLookup {D : Type} (keyOf : D → List Nat) (bucket : List (Slot D))
    (key : List Nat) (hash : Nat) : Option Nat :=
  probeGoLookup keyOf bucket key hash 0 bucket.length

/-- The resize loop (small.rs:193, large.rs:185, common.rs:206): walk the old
bucket in slot order and re-insert every `Data` slot into the new bucket via
`lookup_or_free`; `probeKeyOf` is the key argument passed to the probe (the
*full* inline buffer in small.rs), `rehash` the hash used (recomputed from the
truncated key in small.rs, the cached hash in large.rs). A failing inner
`lookup_or_free` is the source's `unwrap` panic, modelled by `none`. -/
def rehashAll {D : Type} (keyOf probeKeyOf : D → List Nat) (rehash : D → Nat) :
    List (Slot D) → List (Slot D) → Option (List (Slot D))
  | [], acc => some acc
  | .data d :: rest, acc =>
    match probeLookupOrFree keyOf acc (probeKeyOf d) (rehash d) with
    | some idx => rehashAll keyOf probeKeyOf rehash rest (acc.set idx (.data d))
    | none => none
  | _ :: rest, acc => rehashAll keyOf probeKeyOf rehash rest acc

/-! ## The small engine (src/small.rs) -/

/-- `SlotData` of small.rs: the key is an `N`-byte buffer, stored here as the
key bytes padded with zeros to length `N`, together with the actual length. -/
structure SmallData (V : Type) where
  key : List Nat
  len : Nat
  value : V
deriving DecidableEq

/-- The key slice a stored entry is compared against: `&data.key[..data.len]`. -/
def smallKeyOf {V : Type} (d : SmallData V) : List Nat :=
  d.key.take d.len

/-- `data.key[..len].copy_from_slice(key)` into a zeroed `[0; N]` buffer. -/
def pad (N : Nat) (key : List Nat) : List Nat :=
  key ++ List.replicate (N - key.length) 0

structure SmallMap (V : Type) where
  bucket : List (Slot (SmallData V))
  len : Nat
deriving DecidableEq

/-- `with_capacity` (small.rs:52): the backing bucket has exactly `cap` slots,
all `Empty` (`Vec::with_capacity` only reserves; `resize_with(cap, Empty)`
sets the length). -/
def SmallMap.withCapacity {V : Type} (cap : Nat) : SmallMap V :=
  ⟨List.replicate cap .empty, 0⟩

/-- `new` (small.rs:48): MIN_CAPACITY = 8. -/
def SmallMap.new {V : Type} : SmallMap V :=
  SmallMap.withCapacity 8

/-- `resize` (small.rs:193): fresh bucket of `newLen` empties; every `Data`
slot is re-probed with the full padded buffer as key and the hash recomputed
from the truncated key, then moved (overwriting on a key match). -/
def SmallMap.resize {V : Type} (m : SmallMap V) (newLen : Nat)
    (hasher : List Nat → Nat) : Option (SmallMap V) :=
  match rehashAll smallKeyOf (fun d => d.key) (fun d => hasher (d.key.take d.len))
      m.bucket (List.replicate newLen .empty) with
  | some b => some ⟨b, m.len⟩
  | none => none

/-- The growth check after an insertion (small.rs:106):
`len * LOAD_FACTOR_N / LOAD_FACTOR_D >= capacity` with N/D = 3/2 doubles. -/
def SmallMap.growCheck {V : Type} (m : SmallMap V) (hasher : List Nat → Nat) :
    Option (SmallMap V) :=
  if m.len * 3 / 2 ≥ m.bucket.length then m.resize (m.bucket.length * 2) hasher
  else some m

/-- The shrink check after a removal (small.rs:152):
`len > MIN_CAPACITY && len * 3 / 2 <= capacity / 2` halves. -/
def SmallMap.shrinkCheck {V : Type} (m : SmallMap V) (hasher : List Nat → Nat) :
    Option (SmallMap V) :=
  if m.len > 8 ∧ m.len * 3 / 2 ≤ m.bucket.length / 2 then
    m.resize (m.bucket.length / 2) hasher
  else some m

/-- `insert` (small.rs:85): `lookup_or_free` (its `expect` panic is the outer
`none`), replace the slot, increment `len` unconditionally, run the growth
check, and return the previous value if the replaced slot was `Data`.
A key longer than `N` makes `copy_from_slice` panic, hence `none`. -/
def SmallMap.insert {V : Type} (N : Nat) (m : SmallMap V) (key : List Nat)
    (hash : Nat) (v : V) (hasher : List Nat → Nat) :
    Option (Option V × SmallMap V) :=
  match probeLookupOrFree smallKeyOf m.bucket key hash with
  | none => none
  | some idx =>
    if key.length ≤ N then
      match SmallMap.growCheck ⟨m.bucket.set idx (.data ⟨pad N key, key.length, v⟩), m.len + 1⟩ hasher with
      | some m2 =>
        some ((match m.bucket.getD idx .empty with
               | .data d => some d.value
               | _ => none), m2)
      | none => none
    else none

/-- `try_insert` (small.rs:116): on an `Empty`/`Deleted` slot insert and
return `none`; on a `Data` slot return the stored value together with the
rejected one, leaving the map unchanged. -/
def SmallMap.tryInsert {V : Type} (N : Nat) (m : SmallMap V) (key : List Nat)
    (hash : Nat) (v : V) (hasher : List Nat → Nat) :
    Option (Option (V × V) × SmallMap V) :=
  match probeLookupOrFree smallKeyOf m.bucket key hash with
  | none => none
  | some idx =>
    match m.bucket.getD idx .empty with
    | .data d => some (some (d.value, v), m)
    | _ =>
      if key.length ≤ N then
        match SmallMap.growCheck ⟨m.bucket.set idx (.data ⟨pad N key, key.length, v⟩), m.len + 1⟩ hasher with
        | some m2 => some (none, m2)
        | none => none
      else none

/-- `remove` (small.rs:147): a failed `lookup` returns `None` normally; on a
hit the slot becomes a tombstone, `len` is decremented, and the shrink check
runs. (The non-`Data` arm mirrors `slot.remove()?`, which has already written
the tombstone; `lookup` never actually returns such a slot.) -/
def SmallMap.remove {V : Type} (m : SmallMap V) (key : List Nat) (hash : Nat)
    (hasher : List Nat → Nat) : Option (Option V × SmallMap V) :=
  match probeLookup smallKeyOf m.bucket key hash with
  | none => some (none, m)
  | some idx =>
    match m.bucket.getD idx .empty with
    | .data d =>
      match SmallMap.shrinkCheck ⟨m.bucket.set idx .deleted, m.len - 1⟩ hasher with
      | some m2 => some (some d.value, m2)
      | none => none
    | _ => some (none, ⟨m.bucket.set idx .deleted, m.len⟩)

/-- `get` (small.rs:75). -/
def SmallMap.get {V : Type} (m : SmallMap V) (key : List Nat) (hash : Nat) :
    Option V :=
  match probeLookup smallKeyOf m.bucket key hash with
  | some idx =>
    match m.bucket.getD idx .empty with
    | .data d => some d.value
    | _ => none
  | none => none

/-- `iter` (small.rs:209): scan the bucket in slot order yielding the
truncated key and the value, but stop once `len`-many pairs were produced
(the iterator's `rem` counter). -/
def SmallMap.iterPairs {V : Type} (m : SmallMap V) : List (List Nat × V) :=
  (m.bucket.filterMap fun s =>
    match s with
    | .data d => some (smallKeyOf d, d.value)
    | _ => none).take m.len

/-! ## The large engine (src/large.rs) -/

/-- `SlotData` of large.rs: exact owned key plus the cached hash. -/
structure LargeData (V : Type) where
  key : List Nat
  hash : Nat
  value : V
deriving DecidableEq

def largeKeyOf {V : Type} (d : LargeData V) : List Nat :=
  d.key

structure LargeMap (V : Type) where
  bucket : List (Slot (LargeData V))
  len : Nat
deriving DecidableEq

/-- `with_capacity` (large.rs:53). -/
def LargeMap.withCapacity {V : Type} (cap : Nat) : LargeMap V :=
  ⟨List.replicate cap .empty, 0⟩

/-- `new` (large.rs:49): MIN_CAPACITY = 4. -/
def LargeMap.new {V : Type} : LargeMap V :=
  LargeMap.withCapacity 4

/-- `resize` (large.rs:185): the cached hash is reused, no hasher involved. -/
def LargeMap.resize {V : Type} (m : LargeMap V) (newLen : Nat) :
    Option (LargeMap V) :=
  match rehashAll largeKeyOf (fun d => d.key) (fun d => d.hash)
      m.bucket (List.replicate newLen .empty) with
  | some b => some ⟨b, m.len⟩
  | none => none

def LargeMap.growCheck {V : Type} (m : LargeMap V) : Option (LargeMap V) :=
  if m.len * 3 / 2 ≥ m.bucket.length then m.resize (m.bucket.length * 2)
  else some m

def LargeMap.shrinkCheck {V : Type} (m : LargeMap V) : Option (LargeMap V) :=
  if m.len > 4 ∧ m.len * 3 / 2 ≤ m.bucket.length / 2 then
    m.resize (m.bucket.length / 2)
  else some m

/-- `insert` (large.rs:86): same shape as the small engine's insert, with the
key stored exactly and the supplied hash cached in the slot. -/
def LargeMap.insert {V : Type} (m : LargeMap V) (key : List Nat) (hash : Nat)
    (v : V) : Option (Option V × LargeMap V) :=
  match probeLookupOrFree largeKeyOf m.bucket key hash with
  | none => none
  | some idx =>
    match LargeMap.growCheck ⟨m.bucket.set idx (.data ⟨key, hash, v⟩), m.len + 1⟩ with
    | some m2 =>
      some ((match m.bucket.getD idx .empty with
             | .data d => some d.value
             | _ => none), m2)
    | none => none

/-- The body of `try_insert`'s `while trial <= 1` loop (large.rs:110): a
failed probe doubles the table and retries; after two failed trials the
`unreachable!` panic fires (`fuel = 0`). -/
def LargeMap.tryInsertLoop {V : Type} (key : List Nat) (hash : Nat) (v : V) :
    Nat → LargeMap V → Option (Option (V × V) × LargeMap V)
  | 0, _ => none
  | fuel + 1, m =>
    match probeLookupOrFree largeKeyOf m.bucket key hash with
    | some idx =>
      match m.bucket.getD idx .empty with
      | .data d => some (some (d.value, v), m)
      | _ =>
        match LargeMap.growCheck ⟨m.bucket.set idx (.data ⟨key, hash, v⟩), m.len + 1⟩ with
        | some m2 => some (none, m2)
        | none => none
    | none =>
      match m.resize (m.bucket.length * 2) with
      | some m2 => LargeMap.tryInsertLoop key hash v fuel m2
      | none => none

def LargeMap.tryInsert {V : Type} (m : LargeMap V) (key : List Nat)
    (hash : Nat) (v : V) : Option (Option (V × V) × LargeMap V) :=
  LargeMap.tryInsertLoop key hash v 2 m

/-- `remove` (large.rs:143). -/
def LargeMap.remove {V : Type} (m : LargeMap V) (key : List Nat) (hash : Nat) :
    Option (Option V × LargeMap V) :=
  match probeLookup largeKeyOf m.bucket key hash with
  | none => some (none, m)
  | some idx =>
    match m.bucket.getD idx .empty with
    | .data d =>
      match LargeMap.shrinkCheck ⟨m.bucket.set idx .deleted, m.len - 1⟩ with
      | some m2 => some (some d.value, m2)
      | none => none
    | _ => some (none, ⟨m.bucket.set idx .deleted, m.len⟩)

/-- `get` (large.rs:76). -/
def LargeMap.get {V : Type} (m : LargeMap V) (key : List Nat) (hash : Nat) :
    Option V :=
  match probeLookup largeKeyOf m.bucket key hash with
  | some idx =>
    match m.bucket.getD idx .empty with
    | .data d => some d.value
    | _ => none
  | none => none

/-- `iter` (large.rs:199). -/
def LargeMap.iterPairs {V : Type} (m : LargeMap V) : List (List Nat × V) :=
  (m.bucket.filterMap fun s =>
    match s with
    | .data d => some (d.key, d.value)
    | _ => none).take m.len

/-! ## The generic engine (src/common.rs) -/

/-- The `SlotData` trait of common.rs, as a bundle of functions (`new`,
`key`, `hash`, `value`; the bump-allocator argument carries no semantics
here). -/
structure SlotImpl (D V : Type) where
  build : List Nat → Nat → V → D
  key : D → List Nat
  hashOf : D → Option Nat
  value : D → V

structure CommonMap (D : Type) where
  bucket : List (Slot D)
  len : Nat
deriving DecidableEq

/-- `with_capacity` (common.rs:78). MIN_CAPACITY = 8. -/
def CommonMap.withCapacity {D : Type} (cap : Nat) : CommonMap D :=
  ⟨List.replicate cap .empty, 0⟩

def CommonMap.new {D : Type} : CommonMap D :=
  CommonMap.withCapacity 8

/-- `resize` (common.rs:206): the cached hash is used when present, otherwise
the key is rehashed. -/
def CommonMap.resize {D V : Type} (si : SlotImpl D V) (m : CommonMap D)
    (newLen : Nat) (hasher : List Nat → Nat) : Option (CommonMap D) :=
  match rehashAll si.key si.key (fun d => (si.hashOf d).getD (hasher (si.key d)))
      m.bucket (List.replicate newLen .empty) with
  | some b => some ⟨b, m.len⟩
  | none => none

def CommonMap.growCheck {D V : Type} (si : SlotImpl D V) (m : CommonMap D)
    (hasher : List Nat → Nat) : Option (CommonMap D) :=
  if m.len * 3 / 2 ≥ m.bucket.length then
    CommonMap.resize si m (m.bucket.length * 2) hasher
  else some m

/-- `insert` (common.rs:109): identical control flow to the small engine's
insert, with the slot data built by the strategy. -/
def CommonMap.insert {D V : Type} (si : SlotImpl D V) (m : CommonMap D)
    (key : List Nat) (hash : Nat) (v : V) (hasher : List Nat → Nat) :
    Option (Option V × CommonMap D) :=
  match probeLookupOrFree si.key m.bucket key hash with
  | none => none
  | some idx =>
    match CommonMap.growCheck si ⟨m.bucket.set idx (.data (si.build key hash v)), m.len + 1⟩ hasher with
    | some m2 =>
      some ((match m.bucket.getD idx .empty with
             | .data d => some (si.value d)
             | _ => none), m2)
    | none => none

/-! ## KeyRef classification, hashing and the dispatcher (src/adaptive.rs) -/

/-- `KeyRef` (adaptive.rs:8). -/
inductive KeyRef where
  | none
  | s8 (key : List Nat)
  | s16 (key : List Nat)
  | s24 (key : List Nat)
  | large (key : List Nat)
deriving DecidableEq

/-- `KeyRef::key` (adaptive.rs:19). -/
def KeyRef.key : KeyRef → List Nat
  | .none => []
  | .s8 k | .s16 k | .s24 k | .large k => k

/-- `From<&[NonZeroU8]> for KeyRef` (adaptive.rs:28): classification by
length alone. -/
def KeyRef.ofKey (key : List Nat) : KeyRef :=
  if key = [] then .none
  else if key.length ≤ 8 then .s8 key
  else if key.length ≤ 16 then .s16 key
  else if key.length ≤ 24 then .s24 key
  else .large key

/-- The size-class tag by itself. -/
inductive KeyClass where
  | none
  | s8
  | s16
  | s24
  | large
deriving DecidableEq

def KeyRef.tag : KeyRef → KeyClass
  | .none => .none
  | .s8 _ => .s8
  | .s16 _ => .s16
  | .s24 _ => .s24
  | .large _ => .large

/-- The spec's classification table, stated on the length alone
(spec §4.1: 0→None, 1–8→S8, 9–16→S16, 17–24→S24, >24→Large). -/
def specClassOfLen (n : Nat) : KeyClass :=
  if n = 0 then .none
  else if n ≤ 8 then .s8
  else if n ≤ 16 then .s16
  else if n ≤ 24 then .s24
  else .large

/-- `impl Hash for KeyRef` (adaptive.rs:55): every variant hashes the inner
byte slice (the empty slice for `None`); the hasher is abstract. -/
def hashKeyRef (hashBytes : List Nat → Nat) : KeyRef → Nat
  | .none => hashBytes []
  | .s8 k | .s16 k | .s24 k | .large k => hashBytes k

/-- `adaptive::StringMap` (adaptive.rs:67): the empty-key slot, one small
engine per inline class, and the large engine. The hasher is passed to each
operation instead of being stored, so states stay decidably comparable. -/
structure AdaptiveMap (V : Type) where
  noneKey : Option V
  small8 : SmallMap V
  small16 : SmallMap V
  small24 : SmallMap V
  large : LargeMap V
deriving DecidableEq

/-- `with_hasher`/`new` (adaptive.rs:78). -/
def AdaptiveMap.new {V : Type} : AdaptiveMap V :=
  ⟨none, SmallMap.new, SmallMap.new, SmallMap.new, LargeMap.new⟩

/-- `len` (adaptive.rs:94). -/
def AdaptiveMap.len {V : Type} (m : AdaptiveMap V) : Nat :=
  (if m.noneKey.isSome then 1 else 0) + m.small8.len + m.small16.len
    + m.small24.len + m.large.len

/-- `get_hashed` (adaptive.rs:121). -/
def AdaptiveMap.getHashed {V : Type} (m : AdaptiveMap V) (key : KeyRef)
    (hash : Nat) : Option V :=
  match key with
  | .none => m.noneKey
  | .s8 k => m.small8.get k hash
  | .s16 k => m.small16.get k hash
  | .s24 k => m.small24.get k hash
  | .large k => m.large.get k hash

/-- `insert_hashed` (adaptive.rs:151): `None` keys go to
`none_key.replace(value)`; the others to their engine. -/
def AdaptiveMap.insertHashed {V : Type} (m : AdaptiveMap V) (key : KeyRef)
    (hash : Nat) (v : V) (hasher : List Nat → Nat) :
    Option (Option V × AdaptiveMap V) :=
  match key with
  | .none => some (m.noneKey, ⟨some v, m.small8, m.small16, m.small24, m.large⟩)
  | .s8 k =>
    match m.small8.insert 8 k hash v hasher with
    | some (r, s) => some (r, ⟨m.noneKey, s, m.small16, m.small24, m.large⟩)
    | none => none
  | .s16 k =>
    match m.small16.insert 16 k hash v hasher with
    | some (r, s) => some (r, ⟨m.noneKey, m.small8, s, m.small24, m.large⟩)
    | none => none
  | .s24 k =>
    match m.small24.insert 24 k hash v hasher with
    | some (r, s) => some (r, ⟨m.noneKey, m.small8, m.small16, s, m.large⟩)
    | none => none
  | .large k =>
    match m.large.insert k hash v with
    | some (r, s) => some (r, ⟨m.noneKey, m.small8, m.small16, m.small24, s⟩)
    | none => none

/-- `try_insert_hashed` (adaptive.rs:166). -/
def AdaptiveMap.tryInsertHashed {V : Type} (m : AdaptiveMap V) (key : KeyRef)
    (hash : Nat) (v : V) (hasher : List Nat → Nat) :
    Option (Option (V × V) × AdaptiveMap V) :=
  match key with
  | .none =>
    match m.noneKey with
    | some s => some (some (s, v), m)
    | none => some (none, ⟨some v, m.small8, m.small16, m.small24, m.large⟩)
  | .s8 k =>
    match m.small8.tryInsert 8 k hash v hasher with
    | some (r, s) => some (r, ⟨m.noneKey, s, m.small16, m.small24, m.large⟩)
    | none => none
  | .s16 k =>
    match m.small16.tryInsert 16 k hash v hasher with
    | some (r, s) => some (r, ⟨m.noneKey, m.small8, s, m.small24, m.large⟩)
    | none => none
  | .s24 k =>
    match m.small24.tryInsert 24 k hash v hasher with
    | some (r, s) => some (r, ⟨m.noneKey, m.small8, m.small16, s, m.large⟩)
    | none => none
  | .large k =>
    match m.large.tryInsert k hash v with
    | some (r, s) => some (r, ⟨m.noneKey, m.small8, m.small16, m.small24, s⟩)
    | none => none

/-- `remove_hashed` (adaptive.rs:187). -/
def AdaptiveMap.removeHashed {V : Type} (m : AdaptiveMap V) (key : KeyRef)
    (hash : Nat) (hasher : List Nat → Nat) :
    Option (Option V × AdaptiveMap V) :=
  match key with
  | .none => some (m.noneKey, ⟨none, m.small8, m.small16, m.small24, m.large⟩)
  | .s8 k =>
    match m.small8.remove k hash hasher with
    | some (r, s) => some (r, ⟨m.noneKey, s, m.small16, m.small24, m.large⟩)
    | none => none
  | .s16 k =>
    match m.small16.remove k hash hasher with
    | some (r, s) => some (r, ⟨m.noneKey, m.small8, s, m.small24, m.large⟩)
    | none => none
  | .s24 k =>
    match m.small24.remove k hash hasher with
    | some (r, s) => some (r, ⟨m.noneKey, m.small8, m.small16, s, m.large⟩)
    | none => none
  | .large k =>
    match m.large.remove k hash with
    | some (r, s) => some (r, ⟨m.noneKey, m.small8, m.small16, m.small24, s⟩)
    | none => none

/-- `iter` (adaptive.rs:204): empty-key slot first, then the engines in the
fixed class order. -/
def AdaptiveMap.iterPairs {V : Type} (m : AdaptiveMap V) :
    List (List Nat × V) :=
  (match m.noneKey with
   | some v => [(([] : List Nat), v)]
   | none => [])
    ++ m.small8.iterPairs ++ m.small16.iterPairs ++ m.small24.iterPairs
    ++ m.large.iterPairs

/-! ## Operation sequences (drivers for reachability and concrete runs) -/

/-- One public engine operation with caller-supplied hash. -/
inductive SOp (V : Type) where
  | ins (key : List Nat) (hash : Nat) (v : V)
  | tryIns (key : List Nat) (hash : Nat) (v : V)
  | del (key : List Nat) (hash : Nat)

def runSmall {V : Type} (N : Nat) (hasher : List Nat → Nat) :
    List (SOp V) → SmallMap V → Option (SmallMap V)
  | [], m => some m
  | .ins key hash v :: rest, m =>
    match m.insert N key hash v hasher with
    | some (_, m2) => runSmall N hasher rest m2
    | none => none
  | .tryIns key hash v :: rest, m =>
    match m.tryInsert N key hash v hasher with
    | some (_, m2) => runSmall N hasher rest m2
    | none => none
  | .del key hash :: rest, m =>
    match m.remove key hash hasher with
    | some (_, m2) => runSmall N hasher rest m2
    | none => none

def runLarge {V : Type} :
    List (SOp V) → LargeMap V → Option (LargeMap V)
  | [], m => some m
  | .ins key hash v :: rest, m =>
    match m.insert key hash v with
    | some (_, m2) => runLarge rest m2
    | none => none
  | .tryIns key hash v :: rest, m =>
    match m.tryInsert key hash v with
    | some (_, m2) => runLarge rest m2
    | none => none
  | .del key hash :: rest, m =>
    match m.remove key hash with
    | some (_, m2) => runLarge rest m2
    | none => none

/-- An engine state reachable from `new()` by public operations (with
arbitrary caller-chosen hashes, as the hash argument is an unchecked
precondition). -/
def ReachSmall {V : Type} (N : Nat) (hasher : List Nat → Nat)
    (m : SmallMap V) : Prop :=
  ∃ ops, runSmall N hasher ops SmallMap.new = some m

def ReachLarge {V : Type} (m : LargeMap V) : Prop :=
  ∃ ops, runLarge ops LargeMap.new = some m

/-- One public adaptive-map operation (key given as raw bytes; the hash is
computed from the `KeyRef` like the non-`_hashed` entry points do). -/
inductive AOp (V : Type) where
  | ins (key : List Nat) (v : V)
  | del (key : List Nat)

def runAdaptive {V : Type} (hasher : List Nat → Nat) :
    List (AOp V) → AdaptiveMap V → Option (AdaptiveMap V)
  | [], m => some m
  | .ins key v :: rest, m =>
    match m.insertHashed (KeyRef.ofKey key) (hashKeyRef hasher (KeyRef.ofKey key)) v hasher with
    | some (_, m2) => runAdaptive hasher rest m2
    | none => none
  | .del key :: rest, m =>
    match m.removeHashed (KeyRef.ofKey key) (hashKeyRef hasher (KeyRef.ofKey key)) hasher with
    | some (_, m2) => runAdaptive hasher rest m2
    | none => none

/-- The trusted reference container: an association list updated in place. -/
def refInsert {V : Type} (l : List (List Nat × V)) (key : List Nat) (v : V) :
    List (List Nat × V) :=
  match l with
  | [] => [(key, v)]
  | (k0, v0) :: rest =>
    if k0 = key then (key, v) :: rest else (k0, v0) :: refInsert rest key v

def refRemove {V : Type} (l : List (List Nat × V)) (key : List Nat) :
    List (List Nat × V) :=
  l.filter fun p => p.1 ≠ key

def refRun {V : Type} : List (AOp V) → List (List Nat × V) → List (List Nat × V)
  | [], l => l
  | .ins key v :: rest, l => refRun rest (refInsert l key v)
  | .del key :: rest, l => refRun rest (refRemove l key)

/-- A fixed concrete hasher for the counterexample runs: the first byte of
the key (deterministic, so a legitimate `BuildHasher` instance). -/
def hasher0 : List Nat → Nat :=
  fun key => key.headD 0

/-- Number of `Data` slots of the small engine holding a given key. -/
def countKeyData {V : Type} (bucket : List (Slot (SmallData V))) (key : List Nat) : Nat :=
  bucket.countP fun s =>
    match s with
    | .data d => smallKeyOf d == key
    | _ => false

/-- A concrete `SlotData` strategy for the generic engine of common.rs:
exact key storage with a cached hash (the shape large.rs uses). -/
def siExact : SlotImpl (LargeData Nat) Nat :=
  ⟨fun k h v => ⟨k, h, v⟩, fun d => d.key, fun d => some d.hash, fun d => d.value⟩

/-! ## Counting lemmas -/

theorem getD_eq_get {α : Type} :
    ∀ (l : List α) (i : Nat) (h : i < l.length) (dflt : α),
      l.getD i dflt = l.get ⟨i, h⟩ := by
  intro l
  induction l with
  | nil => intro i h dflt; exact absurd h (by simp)
  | cons a t ih =>
    intro i h dflt
    cases i with
    | zero => rfl
    | succ n => simpa using ih n (by simpa using h) dflt

theorem countP_set_le {α : Type} (p : α → Bool) :
    ∀ (l : List α) (i : Nat) (a : α),
      (l.set i a).countP p ≤ l.countP p + 1 := by
  intro l
  induction l with
  | nil => intro i a; simp
  | cons b t ih =>
    intro i a
    cases i with
    | zero =>
      simp only [List.set, List.countP_cons]
      have := ih 0 a
      by_cases hpa : p a <;> by_cases hpb : p b <;> simp [hpa, hpb] <;> omega
    | succ n =>
      simp only [List.set, List.countP_cons]
      have := ih n a
      omega

theorem numData_set_le {D : Type} (l : List (Slot D)) (i : Nat) (s : Slot D) :
    numData (l.set i s) ≤ numData l + 1 :=
  countP_set_le Slot.isData l i s

theorem numData_set_deleted {D : Type} :
    ∀ (l : List (Slot D)) (i : Nat) (d : D),
      l.getD i .empty = .data d → numData (l.set i .deleted) + 1 = numData l := by
  intro l
  induction l with
  | nil => intro i d h; simp at h
  | cons b t ih =>
    intro i d h
    cases i with
    | zero =>
      simp only [List.getD_cons_zero] at h
      subst h
      simp [numData, List.countP_cons, Slot.isData]
    | succ n =>
      simp only [List.getD_cons_succ] at h
      have hrec := ih n d h
      show numData (b :: t.set n .deleted) + 1 = numData (b :: t)
      simp only [numData, List.countP_cons] at *
      omega

theorem numData_replicate {D : Type} (n : Nat) :
    numData (List.replicate n (.empty : Slot D)) = 0 := by
  induction n with
  | zero => rfl
  | succ k ih => simpa [numData, List.replicate_succ, List.countP_cons, Slot.isData] using ih

theorem numData_eq_length_of_all {D : Type} :
    ∀ (l : List (Slot D)),
      (∀ j, j < l.length → (l.getD j .empty).isData = true) →
      numData l = l.length := by
  intro l
  induction l with
  | nil => intro _; rfl
  | cons b t ih =>
    intro h
    have hb : b.isData = true := by simpa using h 0 (by simp)
    have ht : numData t = t.length := by
      refine ih fun j hj => ?_
      simpa using h (j + 1) (by simpa using hj)
    simp only [numData, List.countP_cons, hb, if_true, List.length_cons]
    simp only [numData] at ht
    omega

/-! ## Probe lemmas -/

theorem add_mod_surj (cap hsh j : Nat) (hc : 0 < cap) (hj : j < cap) :
    ∃ t, t < cap ∧ (hsh + t) % cap = j := by
  refine ⟨(cap + j - hsh % cap) % cap, Nat.mod_lt _ hc, ?_⟩
  have hr : hsh % cap < cap := Nat.mod_lt _ hc
  calc (hsh + (cap + j - hsh % cap) % cap) % cap
      = (hsh + (cap + j - hsh % cap)) % cap := Nat.add_mod_mod ..
    _ = (hsh % cap + (cap + j - hsh % cap)) % cap := (Nat.mod_add_mod ..).symm
    _ = (cap + j) % cap := by
        congr 1
        omega
    _ = j % cap := Nat.add_mod_left ..
    _ = j := Nat.mod_eq_of_lt hj

theorem probeGoFree_none {D : Type} (keyOf : D → List Nat)
    (bucket : List (Slot D)) (key : List Nat) (hash : Nat) :
    ∀ fuel i, probeGoFree keyOf bucket key hash i fuel = none →
      ∀ t, t < fuel →
        ((bucket.getD ((hash + i + t) % bucket.length) .empty).isData = true) := by
  intro fuel
  induction fuel with
  | zero => intro i _ t ht; exact absurd ht (Nat.not_lt_zero t)
  | succ n ih =>
    intro i hnone t ht
    rw [probeGoFree] at hnone
    cases hslot : bucket.getD ((hash + i) % bucket.length) .empty with
    | data d =>
      rw [hslot] at hnone
      by_cases hk : keyOf d = key
      · simp [hk] at hnone
      · simp only [hk, if_false] at hnone
        cases t with
        | zero =>
          have : hash + i + 0 = hash + i := by omega
          rw [this, hslot]; rfl
        | succ u =>
          have h2 := ih (i + 1) hnone u (by omega)
          have : hash + (i + 1) + u = hash + i + (u + 1) := by omega
          rwa [this] at h2
    | empty => rw [hslot] at hnone; simp at hnone
    | deleted => rw [hslot] at hnone; simp at hnone

theorem probeGoFree_some_lt {D : Type} (keyOf : D → List Nat)
    (bucket : List (Slot D)) (key : List Nat) (hash : Nat) (hc : 0 < bucket.length) :
    ∀ fuel i idx, probeGoFree keyOf bucket key hash i fuel = some idx →
      idx < bucket.length := by
  intro fuel
  induction fuel with
  | zero => intro i idx h; simp [probeGoFree] at h
  | succ n ih =>
    intro i idx h
    rw [probeGoFree] at h
    cases hslot : bucket.getD ((hash + i) % bucket.length) .empty with
    | data d =>
      rw [hslot] at h
      by_cases hk : keyOf d = key
      · simp only [hk, if_true, Option.some.injEq] at h
        rw [← h]; exact Nat.mod_lt _ hc
      · simp only [hk, if_false] at h
        exact ih (i + 1) idx h
    | empty =>
      rw [hslot] at h
      simp only [Option.some.injEq] at h
      rw [← h]; exact Nat.mod_lt _ hc
    | deleted =>
      rw [hslot] at h
      simp only [Option.some.injEq] at h
      rw [← h]; exact Nat.mod_lt _ hc

/-- If the bucket still contains a non-`Data` slot, the `lookup_or_free` probe
finds a slot within capacity-many steps. -/
theorem probeLookupOrFree_isSome {D : Type} (keyOf : D → List Nat)
    (bucket : List (Slot D)) (key : List Nat) (hash : Nat)
    (h : numData bucket < bucket.length) :
    (probeLookupOrFree keyOf bucket key hash).isSome := by
  have hc : 0 < bucket.length := by omega
  cases hres : probeLookupOrFree keyOf bucket key hash with
  | some idx => rfl
  | none =>
    exfalso
    have hall : ∀ j, j < bucket.length → (bucket.getD j .empty).isData = true := by
      intro j hj
      obtain ⟨t, ht, hmod⟩ := add_mod_surj bucket.length hash j hc hj
      have h2 := probeGoFree_none keyOf bucket key hash bucket.length 0 hres t ht
      have : hash + 0 + t = hash + t := by omega
      rw [this, hmod] at h2
      exact h2
    have := numData_eq_length_of_all bucket hall
    omega

theorem probeLookupOrFree_some_lt {D : Type} (keyOf : D → List Nat)
    (bucket : List (Slot D)) (key : List Nat) (hash : Nat) (idx : Nat)
    (h : probeLookupOrFree keyOf bucket key hash = some idx) :
    idx < bucket.length := by
  have hc : 0 < bucket.length := by
    by_contra hc
    have h0 : bucket.length = 0 := by omega
    rw [probeLookupOrFree, h0] at h
    simp [probeGoFree] at h
  exact probeGoFree_some_lt keyOf bucket key hash hc bucket.length 0 idx h

theorem probeGoLookup_some {D : Type} (keyOf : D → List Nat)
    (bucket : List (Slot D)) (key : List Nat) (hash : Nat) (hc : 0 < bucket.length) :
    ∀ fuel i idx, probeGoLookup keyOf bucket key hash i fuel = some idx →
      ∃ d, bucket.getD idx .empty = .data d ∧ keyOf d = key ∧ idx < bucket.length := by
  intro fuel
  induction fuel with
  | zero => intro i idx h; simp [probeGoLookup] at h
  | succ n ih =>
    intro i idx h
    rw [probeGoLookup] at h
    cases hslot : bucket.getD ((hash + i) % bucket.length) .empty with
    | data d =>
      rw [hslot] at h
      by_cases hk : keyOf d = key
      · simp only [hk, if_true, Option.some.injEq] at h
        exact ⟨d, by rw [← h]; exact hslot, hk, by rw [← h]; exact Nat.mod_lt _ hc⟩
      · simp only [hk, if_false] at h
        exact ih (i + 1) idx h
    | empty => rw [hslot] at h; simp at h
    | deleted =>
      rw [hslot] at h
      exact ih (i + 1) idx h

theorem probeLookup_some {D : Type} (keyOf : D → List Nat)
    (bucket : List (Slot D)) (key : List Nat) (hash : Nat) (idx : Nat)
    (h : probeLookup keyOf bucket key hash = some idx) :
    ∃ d, bucket.getD idx .empty = .data d ∧ keyOf d = key ∧ idx < bucket.length := by
  have hc : 0 < bucket.length := by
    by_contra hc
    have h0 : bucket.length = 0 := by omega
    rw [probeLookup, h0] at h
    simp [probeGoLookup] at h
  exact probeGoLookup_some keyOf bucket key hash hc bucket.length 0 idx h

/-! ## Resize success -/

theorem rehashAll_ok {D : Type} (keyOf probeKeyOf : D → List Nat) (rehash : D → Nat) :
    ∀ (old acc : List (Slot D)) (B : Nat),
      numData acc + numData old ≤ B → B < acc.length →
      ∃ res, rehashAll keyOf probeKeyOf rehash old acc = some res ∧
        res.length = acc.length ∧ numData res ≤ numData acc + numData old := by
  intro old
  induction old with
  | nil =>
    intro acc B h1 h2
    exact ⟨acc, rfl, rfl, by simp [numData]⟩
  | cons s rest ih =>
    intro acc B h1 h2
    cases s with
    | data d =>
      have hcnt : numData (Slot.data d :: rest) = numData rest + 1 := by
        simp [numData, List.countP_cons, Slot.isData]
      have hlt : numData acc < acc.length := by omega
      have hsome := probeLookupOrFree_isSome keyOf acc (probeKeyOf d) (rehash d) hlt
      obtain ⟨idx, hidx⟩ := Option.isSome_iff_exists.mp hsome
      rw [rehashAll, hidx]
      have hlen : (acc.set idx (.data d)).length = acc.length := List.length_set ..
      have hnd : numData (acc.set idx (.data d)) ≤ numData acc + 1 :=
        numData_set_le ..
      obtain ⟨res, hres, hrlen, hrnd⟩ :=
        ih (acc.set idx (.data d)) B (by omega) (by omega)
      exact ⟨res, hres, by omega, by omega⟩
    | empty =>
      have hcnt : numData (Slot.empty :: rest) = numData rest := by
        simp [numData, List.countP_cons, Slot.isData]
      have hstep : rehashAll keyOf probeKeyOf rehash (Slot.empty :: rest) acc
          = rehashAll keyOf probeKeyOf rehash rest acc := rfl
      rw [hstep]
      obtain ⟨res, hres, hrlen, hrnd⟩ := ih acc B (by omega) h2
      exact ⟨res, hres, hrlen, by omega⟩
    | deleted =>
      have hcnt : numData (Slot.deleted :: rest) = numData rest := by
        simp [numData, List.countP_cons, Slot.isData]
      have hstep : rehashAll keyOf probeKeyOf rehash (Slot.deleted :: rest) acc
          = rehashAll keyOf probeKeyOf rehash rest acc := rfl
      rw [hstep]
      obtain ⟨res, hres, hrlen, hrnd⟩ := ih acc B (by omega) h2
      exact ⟨res, hres, hrlen, by omega⟩

/-! ## Engine invariants: the small engine -/

@[simp] theorem SmallMap.bucketS_mk {V : Type} (b : List (Slot (SmallData V))) (l : Nat) :
    (SmallMap.mk b l).bucket = b := rfl

@[simp] theorem SmallMap.lenS_mk {V : Type} (b : List (Slot (SmallData V))) (l : Nat) :
    (SmallMap.mk b l).len = l := rfl

/-- The engine invariant: `len` bounds the number of `Data` slots (the bound
is not an equality because overwriting inserts also bump `len`), occupancy is
strictly below capacity, and capacity is `8 * 2 ^ k`. -/
def SmallMap.Inv {V : Type} (m : SmallMap V) : Prop :=
  numData m.bucket ≤ m.len ∧ m.len < m.bucket.length ∧
    ∃ k, m.bucket.length = 8 * 2 ^ k

theorem SmallMap.resizeS_ok {V : Type} (m : SmallMap V) (newLen B : Nat)
    (hasher : List Nat → Nat) (h1 : numData m.bucket ≤ B) (h2 : B < newLen) :
    ∃ m2, m.resize newLen hasher = some m2 ∧ m2.bucket.length = newLen ∧
      m2.len = m.len ∧ numData m2.bucket ≤ numData m.bucket := by
  obtain ⟨res, hres, hrlen, hrnd⟩ :=
    rehashAll_ok smallKeyOf (fun d => d.key) (fun d => hasher (d.key.take d.len))
      m.bucket (List.replicate newLen .empty) B
      (by rw [numData_replicate]; omega)
      (by rw [List.length_replicate]; omega)
  rw [List.length_replicate] at hrlen
  rw [numData_replicate] at hrnd
  refine ⟨⟨res, m.len⟩, ?_, ?_, rfl, ?_⟩
  · rw [SmallMap.resize, hres]
  · simp only [SmallMap.bucketS_mk]
    exact hrlen
  · simp only [SmallMap.bucketS_mk]
    omega

theorem SmallMap.growCheckS_spec {V : Type} (b : List (Slot (SmallData V)))
    (n : Nat) (hasher : List Nat → Nat) (k : Nat)
    (hnd : numData b ≤ n) (hn : n ≤ b.length) (hpow : b.length = 8 * 2 ^ k) :
    ∃ m2, SmallMap.growCheck ⟨b, n⟩ hasher = some m2 ∧ m2.len = n ∧
      numData m2.bucket ≤ numData b ∧ n < m2.bucket.length ∧
      m2.bucket.length = (if n * 3 / 2 ≥ b.length then b.length * 2 else b.length) ∧
      (∃ k2, m2.bucket.length = 8 * 2 ^ k2) := by
  have hp : 0 < 2 ^ k := Nat.pos_pow_of_pos k (by omega)
  have hcap : 0 < b.length := by omega
  simp only [SmallMap.growCheck, SmallMap.bucketS_mk, SmallMap.lenS_mk]
  by_cases hg : n * 3 / 2 ≥ b.length
  · rw [if_pos hg]
    obtain ⟨m2, hres, hlen2, hlenEq, hnd2⟩ :=
      SmallMap.resizeS_ok ⟨b, n⟩ (b.length * 2) n hasher (by simp only [SmallMap.bucketS_mk]; omega) (by omega)
    rw [SmallMap.lenS_mk] at hlenEq
    simp only [SmallMap.bucketS_mk] at hnd2
    refine ⟨m2, hres, hlenEq, hnd2, by omega, by rw [if_pos hg]; omega, k + 1, ?_⟩
    rw [hlen2, hpow]
    ring
  · rw [if_neg hg]
    refine ⟨⟨b, n⟩, rfl, rfl, ?_, ?_, ?_, k, ?_⟩
    · simp only [SmallMap.bucketS_mk]
      exact Nat.le_refl _
    · simp only [SmallMap.bucketS_mk]
      omega
    · simp only [SmallMap.bucketS_mk]
      rw [if_neg hg]
    · simp only [SmallMap.bucketS_mk]
      exact hpow

theorem SmallMap.shrinkCheckS_spec {V : Type} (b : List (Slot (SmallData V)))
    (n : Nat) (hasher : List Nat → Nat) (k : Nat)
    (hnd : numData b ≤ n) (hn : n < b.length) (hpow : b.length = 8 * 2 ^ k) :
    ∃ m2, SmallMap.shrinkCheck ⟨b, n⟩ hasher = some m2 ∧ m2.len = n ∧
      numData m2.bucket ≤ numData b ∧ n < m2.bucket.length ∧
      m2.bucket.length =
        (if n > 8 ∧ n * 3 / 2 ≤ b.length / 2 then b.length / 2 else b.length) ∧
      (∃ k2, m2.bucket.length = 8 * 2 ^ k2) := by
  have hp : 0 < 2 ^ k := Nat.pos_pow_of_pos k (by omega)
  simp only [SmallMap.shrinkCheck, SmallMap.bucketS_mk, SmallMap.lenS_mk]
  by_cases hs : n > 8 ∧ n * 3 / 2 ≤ b.length / 2
  · rw [if_pos hs]
    obtain ⟨hn8, hdiv⟩ := hs
    have hlb : 26 ≤ b.length := by omega
    have hk2 : 2 ≤ k := by
      by_contra hk
      have hcase : k = 0 ∨ k = 1 := by omega
      rcases hcase with h | h <;> rw [h] at hpow <;> simp at hpow <;> omega
    have hlt : n < b.length / 2 := by omega
    obtain ⟨m2, hres, hlen2, hlenEq, hnd2⟩ :=
      SmallMap.resizeS_ok ⟨b, n⟩ (b.length / 2) n hasher (by simp only [SmallMap.bucketS_mk]; omega) hlt
    rw [SmallMap.lenS_mk] at hlenEq
    simp only [SmallMap.bucketS_mk] at hnd2
    refine ⟨m2, hres, hlenEq, hnd2, by omega, by rw [if_pos ⟨hn8, hdiv⟩]; omega, ?_⟩
    obtain ⟨k3, hk3⟩ : ∃ k3, k = k3 + 1 := ⟨k - 1, by omega⟩
    refine ⟨k3, ?_⟩
    rw [hlen2, hpow, hk3, pow_succ]
    have hq : 0 < 2 ^ k3 := Nat.pos_pow_of_pos k3 (by omega)
    omega
  · rw [if_neg hs]
    refine ⟨⟨b, n⟩, rfl, rfl, ?_, ?_, ?_, k, ?_⟩
    · simp only [SmallMap.bucketS_mk]
      exact Nat.le_refl _
    · simp only [SmallMap.bucketS_mk]
      exact hn
    · simp only [SmallMap.bucketS_mk]
      rw [if_neg hs]
    · simp only [SmallMap.bucketS_mk]
      exact hpow

theorem SmallMap.insertS_spec {V : Type} (N : Nat) (m : SmallMap V)
    (key : List Nat) (hash : Nat) (v : V) (hasher : List Nat → Nat)
    (hInv : m.Inv) (hk : key.length ≤ N) :
    ∃ r m2, m.insert N key hash v hasher = some (r, m2) ∧ m2.Inv ∧
      m2.len = m.len + 1 ∧
      m2.bucket.length =
        (if (m.len + 1) * 3 / 2 ≥ m.bucket.length then m.bucket.length * 2
         else m.bucket.length) := by
  obtain ⟨hnd, hlen, k, hpow⟩ := hInv
  have hsome := probeLookupOrFree_isSome smallKeyOf m.bucket key hash (by omega)
  obtain ⟨idx, hidx⟩ := Option.isSome_iff_exists.mp hsome
  have hndset : numData (m.bucket.set idx (.data ⟨pad N key, key.length, v⟩)) ≤ m.len + 1 :=
    Nat.le_trans (numData_set_le ..) (by omega)
  have hlenset : (m.bucket.set idx (.data ⟨pad N key, key.length, v⟩)).length = m.bucket.length :=
    List.length_set ..
  obtain ⟨m2, hgrow, hm2len, hm2nd, hm2lt, hm2cap, hm2pow⟩ :=
    SmallMap.growCheckS_spec (m.bucket.set idx (.data ⟨pad N key, key.length, v⟩))
      (m.len + 1) hasher k hndset (by omega) (by rw [hlenset]; exact hpow)
  rw [hlenset] at hm2cap
  refine ⟨(match m.bucket.getD idx .empty with | .data d => some d.value | _ => none),
    m2, ?_, ⟨by omega, by omega, hm2pow⟩, hm2len, hm2cap⟩
  simp only [SmallMap.insert, hidx, if_pos hk, hgrow]

theorem SmallMap.insert_long_none {V : Type} (N : Nat) (m : SmallMap V)
    (key : List Nat) (hash : Nat) (v : V) (hasher : List Nat → Nat)
    (h : ¬ key.length ≤ N) :
    m.insert N key hash v hasher = none := by
  rcases hp : probeLookupOrFree smallKeyOf m.bucket key hash with _ | idx
  · simp only [SmallMap.insert, hp]
  · simp only [SmallMap.insert, hp, if_neg h]

theorem SmallMap.tryInsertS_spec {V : Type} (N : Nat) (m : SmallMap V)
    (key : List Nat) (hash : Nat) (v : V) (hasher : List Nat → Nat)
    (hInv : m.Inv) (hk : key.length ≤ N) :
    ∃ r m2, m.tryInsert N key hash v hasher = some (r, m2) ∧ m2.Inv := by
  obtain ⟨hnd, hlen, k, hpow⟩ := hInv
  have hsome := probeLookupOrFree_isSome smallKeyOf m.bucket key hash (by omega)
  obtain ⟨idx, hidx⟩ := Option.isSome_iff_exists.mp hsome
  have hndset : numData (m.bucket.set idx (.data ⟨pad N key, key.length, v⟩)) ≤ m.len + 1 :=
    Nat.le_trans (numData_set_le ..) (by omega)
  have hlenset : (m.bucket.set idx (.data ⟨pad N key, key.length, v⟩)).length = m.bucket.length :=
    List.length_set ..
  obtain ⟨m2, hgrow, hm2len, hm2nd, hm2lt, hm2cap, hm2pow⟩ :=
    SmallMap.growCheckS_spec (m.bucket.set idx (.data ⟨pad N key, key.length, v⟩))
      (m.len + 1) hasher k hndset (by omega) (by rw [hlenset]; exact hpow)
  simp only [SmallMap.tryInsert, hidx]
  cases hslot : m.bucket.getD idx .empty with
  | data d =>
    exact ⟨some (d.value, v), m, rfl, ⟨hnd, hlen, k, hpow⟩⟩
  | empty =>
    rw [if_pos hk]
    simp only [hgrow]
    exact ⟨none, m2, rfl, ⟨by omega, by omega, hm2pow⟩⟩
  | deleted =>
    rw [if_pos hk]
    simp only [hgrow]
    exact ⟨none, m2, rfl, ⟨by omega, by omega, hm2pow⟩⟩

theorem SmallMap.tryInsert_long {V : Type} (N : Nat) (m : SmallMap V)
    (key : List Nat) (hash : Nat) (v : V) (hasher : List Nat → Nat)
    (h : ¬ key.length ≤ N) (r : Option (V × V)) (m2 : SmallMap V)
    (heq : m.tryInsert N key hash v hasher = some (r, m2)) :
    m2 = m := by
  rcases hp : probeLookupOrFree smallKeyOf m.bucket key hash with _ | idx
  · simp only [SmallMap.tryInsert, hp] at heq
    exact absurd heq (by simp)
  · simp only [SmallMap.tryInsert, hp] at heq
    cases hslot : m.bucket.getD idx .empty with
    | data d =>
      rw [hslot] at heq
      simp only [Option.some.injEq, Prod.mk.injEq] at heq
      exact heq.2.symm
    | empty =>
      rw [hslot, if_neg h] at heq
      exact absurd heq (by simp)
    | deleted =>
      rw [hslot, if_neg h] at heq
      exact absurd heq (by simp)

theorem SmallMap.removeS_spec {V : Type} (m : SmallMap V) (key : List Nat)
    (hash : Nat) (hasher : List Nat → Nat) (hInv : m.Inv) :
    ∃ r m2, m.remove key hash hasher = some (r, m2) ∧ m2.Inv ∧
      m2.bucket.length =
        (if r.isSome ∧ (m.len - 1 > 8 ∧ (m.len - 1) * 3 / 2 ≤ m.bucket.length / 2)
         then m.bucket.length / 2 else m.bucket.length) ∧
      (r.isSome → m2.len = m.len - 1) := by
  obtain ⟨hnd, hlen, k, hpow⟩ := hInv
  cases hlook : probeLookup smallKeyOf m.bucket key hash with
  | none =>
    refine ⟨none, m, ?_, ⟨hnd, hlen, k, hpow⟩, by simp, by simp⟩
    simp only [SmallMap.remove, hlook]
  | some idx =>
    obtain ⟨d, hslot, hdkey, hidxlt⟩ := probeLookup_some smallKeyOf m.bucket key hash idx hlook
    have hone : numData (m.bucket.set idx .deleted) + 1 = numData m.bucket :=
      numData_set_deleted m.bucket idx d hslot
    have hndset : numData (m.bucket.set idx .deleted) ≤ m.len - 1 := by omega
    have hlenset : (m.bucket.set idx .deleted).length = m.bucket.length :=
      List.length_set ..
    obtain ⟨m2, hshr, hm2len, hm2nd, hm2lt, hm2cap, hm2pow⟩ :=
      SmallMap.shrinkCheckS_spec (m.bucket.set idx .deleted) (m.len - 1) hasher k
        hndset (by omega) (by rw [hlenset]; exact hpow)
    rw [hlenset] at hm2cap
    refine ⟨some d.value, m2, ?_, ⟨by omega, by omega, hm2pow⟩, ?_, fun _ => hm2len⟩
    · simp only [SmallMap.remove, hlook, hslot, hshr]
    · rw [hm2cap]
      simp only [Option.isSome_some, true_and]

theorem runSmall_inv {V : Type} (N : Nat) (hasher : List Nat → Nat) :
    ∀ (ops : List (SOp V)) (m : SmallMap V), m.Inv →
      ∀ m2, runSmall N hasher ops m = some m2 → m2.Inv := by
  intro ops
  induction ops with
  | nil =>
    intro m hm m2 h
    simp only [runSmall, Option.some.injEq] at h
    rw [← h]
    exact hm
  | cons op rest ih =>
    intro m hm m2 h
    cases op with
    | ins key hash v =>
      by_cases hk : key.length ≤ N
      · obtain ⟨r, m1, heq, hInv1, _, _⟩ := SmallMap.insertS_spec N m key hash v hasher hm hk
        simp only [runSmall, heq] at h
        exact ih m1 hInv1 m2 h
      · simp only [runSmall, SmallMap.insert_long_none N m key hash v hasher hk] at h
        exact absurd h (by simp)
    | tryIns key hash v =>
      by_cases hk : key.length ≤ N
      · obtain ⟨r, m1, heq, hInv1⟩ := SmallMap.tryInsertS_spec N m key hash v hasher hm hk
        simp only [runSmall, heq] at h
        exact ih m1 hInv1 m2 h
      · rcases htry : m.tryInsert N key hash v hasher with _ | ⟨r, m1⟩
        · simp only [runSmall, htry] at h
          exact absurd h (by simp)
        · simp only [runSmall, htry] at h
          have hm1 := SmallMap.tryInsert_long N m key hash v hasher hk r m1 htry
          rw [hm1] at h
          exact ih m hm m2 h
    | del key hash =>
      obtain ⟨r, m1, heq, hInv1, _, _⟩ := SmallMap.removeS_spec m key hash hasher hm
      simp only [runSmall, heq] at h
      exact ih m1 hInv1 m2 h

theorem SmallMap.newS_inv {V : Type} : (SmallMap.new : SmallMap V).Inv := by
  refine ⟨?_, ?_, 0, ?_⟩
  · show numData (List.replicate 8 (.empty : Slot (SmallData V))) ≤ 0
    rw [numData_replicate]
  · show (0 : Nat) < (List.replicate 8 (.empty : Slot (SmallData V))).length
    rw [List.length_replicate]
    omega
  · show (List.replicate 8 (.empty : Slot (SmallData V))).length = 8 * 2 ^ 0
    rw [List.length_replicate]
    decide

theorem ReachSmall.inv_small {V : Type} {N : Nat} {hasher : List Nat → Nat}
    {m : SmallMap V} (h : ReachSmall N hasher m) : m.Inv := by
  obtain ⟨ops, hops⟩ := h
  exact runSmall_inv N hasher ops SmallMap.new SmallMap.newS_inv m hops

/-! ## Engine invariants: the large engine -/

@[simp] theorem LargeMap.bucketL_mk {V : Type} (b : List (Slot (LargeData V))) (l : Nat) :
    (LargeMap.mk b l).bucket = b := rfl

@[simp] theorem LargeMap.lenL_mk {V : Type} (b : List (Slot (LargeData V))) (l : Nat) :
    (LargeMap.mk b l).len = l := rfl

/-- The large-engine invariant, with minimum capacity 4. -/
def LargeMap.Inv {V : Type} (m : LargeMap V) : Prop :=
  numData m.bucket ≤ m.len ∧ m.len < m.bucket.length ∧
    ∃ k, m.bucket.length = 4 * 2 ^ k

theorem LargeMap.resizeL_ok {V : Type} (m : LargeMap V) (newLen B : Nat)
    (h1 : numData m.bucket ≤ B) (h2 : B < newLen) :
    ∃ m2, m.resize newLen = some m2 ∧ m2.bucket.length = newLen ∧
      m2.len = m.len ∧ numData m2.bucket ≤ numData m.bucket := by
  obtain ⟨res, hres, hrlen, hrnd⟩ :=
    rehashAll_ok largeKeyOf (fun d => d.key) (fun d => d.hash)
      m.bucket (List.replicate newLen .empty) B
      (by rw [numData_replicate]; omega)
      (by rw [List.length_replicate]; omega)
  rw [List.length_replicate] at hrlen
  rw [numData_replicate] at hrnd
  refine ⟨⟨res, m.len⟩, ?_, ?_, rfl, ?_⟩
  · rw [LargeMap.resize, hres]
  · simp only [LargeMap.bucketL_mk]
    exact hrlen
  · simp only [LargeMap.bucketL_mk]
    omega

theorem LargeMap.growCheckL_spec {V : Type} (b : List (Slot (LargeData V)))
    (n : Nat) (k : Nat)
    (hnd : numData b ≤ n) (hn : n ≤ b.length) (hpow : b.length = 4 * 2 ^ k) :
    ∃ m2, LargeMap.growCheck ⟨b, n⟩ = some m2 ∧ m2.len = n ∧
      numData m2.bucket ≤ numData b ∧ n < m2.bucket.length ∧
      m2.bucket.length = (if n * 3 / 2 ≥ b.length then b.length * 2 else b.length) ∧
      (∃ k2, m2.bucket.length = 4 * 2 ^ k2) := by
  have hp : 0 < 2 ^ k := Nat.pos_pow_of_pos k (by omega)
  have hcap : 0 < b.length := by omega
  simp only [LargeMap.growCheck, LargeMap.bucketL_mk, LargeMap.lenL_mk]
  by_cases hg : n * 3 / 2 ≥ b.length
  · rw [if_pos hg]
    obtain ⟨m2, hres, hlen2, hlenEq, hnd2⟩ :=
      LargeMap.resizeL_ok ⟨b, n⟩ (b.length * 2) n (by simp only [LargeMap.bucketL_mk]; omega) (by omega)
    rw [LargeMap.lenL_mk] at hlenEq
    simp only [LargeMap.bucketL_mk] at hnd2
    refine ⟨m2, hres, hlenEq, hnd2, by omega, by rw [if_pos hg]; omega, k + 1, ?_⟩
    rw [hlen2, hpow]
    ring
  · rw [if_neg hg]
    refine ⟨⟨b, n⟩, rfl, rfl, ?_, ?_, ?_, k, ?_⟩
    · simp only [LargeMap.bucketL_mk]
      exact Nat.le_refl _
    · simp only [LargeMap.bucketL_mk]
      omega
    · simp only [LargeMap.bucketL_mk]
      rw [if_neg hg]
    · simp only [LargeMap.bucketL_mk]
      exact hpow

theorem LargeMap.shrinkCheckL_spec {V : Type} (b : List (Slot (LargeData V)))
    (n : Nat) (k : Nat)
    (hnd : numData b ≤ n) (hn : n < b.length) (hpow : b.length = 4 * 2 ^ k) :
    ∃ m2, LargeMap.shrinkCheck ⟨b, n⟩ = some m2 ∧ m2.len = n ∧
      numData m2.bucket ≤ numData b ∧ n < m2.bucket.length ∧
      m2.bucket.length =
        (if n > 4 ∧ n * 3 / 2 ≤ b.length / 2 then b.length / 2 else b.length) ∧
      (∃ k2, m2.bucket.length = 4 * 2 ^ k2) := by
  have hp : 0 < 2 ^ k := Nat.pos_pow_of_pos k (by omega)
  simp only [LargeMap.shrinkCheck, LargeMap.bucketL_mk, LargeMap.lenL_mk]
  by_cases hs : n > 4 ∧ n * 3 / 2 ≤ b.length / 2
  · rw [if_pos hs]
    obtain ⟨hn4, hdiv⟩ := hs
    have hlb : 14 ≤ b.length := by omega
    have hk2 : 2 ≤ k := by
      by_contra hk
      have hcase : k = 0 ∨ k = 1 := by omega
      rcases hcase with h | h <;> rw [h] at hpow <;> simp at hpow <;> omega
    have hlt : n < b.length / 2 := by omega
    obtain ⟨m2, hres, hlen2, hlenEq, hnd2⟩ :=
      LargeMap.resizeL_ok ⟨b, n⟩ (b.length / 2) n (by simp only [LargeMap.bucketL_mk]; omega) hlt
    rw [LargeMap.lenL_mk] at hlenEq
    simp only [LargeMap.bucketL_mk] at hnd2
    refine ⟨m2, hres, hlenEq, hnd2, by omega, by rw [if_pos ⟨hn4, hdiv⟩]; omega, ?_⟩
    obtain ⟨k3, hk3⟩ : ∃ k3, k = k3 + 1 := ⟨k - 1, by omega⟩
    refine ⟨k3, ?_⟩
    rw [hlen2, hpow, hk3, pow_succ]
    have hq : 0 < 2 ^ k3 := Nat.pos_pow_of_pos k3 (by omega)
    omega
  · rw [if_neg hs]
    refine ⟨⟨b, n⟩, rfl, rfl, ?_, ?_, ?_, k, ?_⟩
    · simp only [LargeMap.bucketL_mk]
      exact Nat.le_refl _
    · simp only [LargeMap.bucketL_mk]
      exact hn
    · simp only [LargeMap.bucketL_mk]
      rw [if_neg hs]
    · simp only [LargeMap.bucketL_mk]
      exact hpow

theorem LargeMap.insertL_spec {V : Type} (m : LargeMap V)
    (key : List Nat) (hash : Nat) (v : V)
    (hInv : m.Inv) :
    ∃ r m2, m.insert key hash v = some (r, m2) ∧ m2.Inv ∧
      m2.len = m.len + 1 ∧
      m2.bucket.length =
        (if (m.len + 1) * 3 / 2 ≥ m.bucket.length then m.bucket.length * 2
         else m.bucket.length) := by
  obtain ⟨hnd, hlen, k, hpow⟩ := hInv
  have hsome := probeLookupOrFree_isSome largeKeyOf m.bucket key hash (by omega)
  obtain ⟨idx, hidx⟩ := Option.isSome_iff_exists.mp hsome
  have hndset : numData (m.bucket.set idx (.data ⟨key, hash, v⟩)) ≤ m.len + 1 :=
    Nat.le_trans (numData_set_le ..) (by omega)
  have hlenset : (m.bucket.set idx (.data ⟨key, hash, v⟩)).length = m.bucket.length :=
    List.length_set ..
  obtain ⟨m2, hgrow, hm2len, hm2nd, hm2lt, hm2cap, hm2pow⟩ :=
    LargeMap.growCheckL_spec (m.bucket.set idx (.data ⟨key, hash, v⟩))
      (m.len + 1) k hndset (by omega) (by rw [hlenset]; exact hpow)
  rw [hlenset] at hm2cap
  refine ⟨(match m.bucket.getD idx .empty with | .data d => some d.value | _ => none),
    m2, ?_, ⟨by omega, by omega, hm2pow⟩, hm2len, hm2cap⟩
  simp only [LargeMap.insert, hidx, hgrow]

theorem LargeMap.tryInsertL_spec {V : Type} (m : LargeMap V)
    (key : List Nat) (hash : Nat) (v : V)
    (hInv : m.Inv) :
    ∃ r m2, m.tryInsert key hash v = some (r, m2) ∧ m2.Inv := by
  obtain ⟨hnd, hlen, k, hpow⟩ := hInv
  have hsome := probeLookupOrFree_isSome largeKeyOf m.bucket key hash (by omega)
  obtain ⟨idx, hidx⟩ := Option.isSome_iff_exists.mp hsome
  have hndset : numData (m.bucket.set idx (.data ⟨key, hash, v⟩)) ≤ m.len + 1 :=
    Nat.le_trans (numData_set_le ..) (by omega)
  have hlenset : (m.bucket.set idx (.data ⟨key, hash, v⟩)).length = m.bucket.length :=
    List.length_set ..
  obtain ⟨m2, hgrow, hm2len, hm2nd, hm2lt, hm2cap, hm2pow⟩ :=
    LargeMap.growCheckL_spec (m.bucket.set idx (.data ⟨key, hash, v⟩))
      (m.len + 1) k hndset (by omega) (by rw [hlenset]; exact hpow)
  rw [LargeMap.tryInsert, LargeMap.tryInsertLoop]
  simp only [hidx]
  cases hslot : m.bucket.getD idx .empty with
  | data d =>
    exact ⟨some (d.value, v), m, rfl, ⟨hnd, hlen, k, hpow⟩⟩
  | empty =>
    simp only [hgrow]
    exact ⟨none, m2, rfl, ⟨by omega, by omega, hm2pow⟩⟩
  | deleted =>
    simp only [hgrow]
    exact ⟨none, m2, rfl, ⟨by omega, by omega, hm2pow⟩⟩

theorem LargeMap.removeL_spec {V : Type} (m : LargeMap V) (key : List Nat)
    (hash : Nat) (hInv : m.Inv) :
    ∃ r m2, m.remove key hash = some (r, m2) ∧ m2.Inv ∧
      m2.bucket.length =
        (if r.isSome ∧ (m.len - 1 > 4 ∧ (m.len - 1) * 3 / 2 ≤ m.bucket.length / 2)
         then m.bucket.length / 2 else m.bucket.length) ∧
      (r.isSome → m2.len = m.len - 1) := by
  obtain ⟨hnd, hlen, k, hpow⟩ := hInv
  cases hlook : probeLookup largeKeyOf m.bucket key hash with
  | none =>
    refine ⟨none, m, ?_, ⟨hnd, hlen, k, hpow⟩, by simp, by simp⟩
    simp only [LargeMap.remove, hlook]
  | some idx =>
    obtain ⟨d, hslot, hdkey, hidxlt⟩ := probeLookup_some largeKeyOf m.bucket key hash idx hlook
    have hone : numData (m.bucket.set idx .deleted) + 1 = numData m.bucket :=
      numData_set_deleted m.bucket idx d hslot
    have hndset : numData (m.bucket.set idx .deleted) ≤ m.len - 1 := by omega
    have hlenset : (m.bucket.set idx .deleted).length = m.bucket.length :=
      List.length_set ..
    obtain ⟨m2, hshr, hm2len, hm2nd, hm2lt, hm2cap, hm2pow⟩ :=
      LargeMap.shrinkCheckL_spec (m.bucket.set idx .deleted) (m.len - 1) k
        hndset (by omega) (by rw [hlenset]; exact hpow)
    rw [hlenset] at hm2cap
    refine ⟨some d.value, m2, ?_, ⟨by omega, by omega, hm2pow⟩, ?_, fun _ => hm2len⟩
    · simp only [LargeMap.remove, hlook, hslot, hshr]
    · rw [hm2cap]
      simp only [Option.isSome_some, true_and]

theorem runLarge_inv {V : Type} :
    ∀ (ops : List (SOp V)) (m : LargeMap V), m.Inv →
      ∀ m2, runLarge ops m = some m2 → m2.Inv := by
  intro ops
  induction ops with
  | nil =>
    intro m hm m2 h
    simp only [runLarge, Option.some.injEq] at h
    rw [← h]
    exact hm
  | cons op rest ih =>
    intro m hm m2 h
    cases op with
    | ins key hash v =>
      obtain ⟨r, m1, heq, hInv1, _, _⟩ := LargeMap.insertL_spec m key hash v hm
      simp only [runLarge, heq] at h
      exact ih m1 hInv1 m2 h
    | tryIns key hash v =>
      obtain ⟨r, m1, heq, hInv1⟩ := LargeMap.tryInsertL_spec m key hash v hm
      simp only [runLarge, heq] at h
      exact ih m1 hInv1 m2 h
    | del key hash =>
      obtain ⟨r, m1, heq, hInv1, _, _⟩ := LargeMap.removeL_spec m key hash hm
      simp only [runLarge, heq] at h
      exact ih m1 hInv1 m2 h

theorem LargeMap.newL_inv {V : Type} : (LargeMap.new : LargeMap V).Inv := by
  refine ⟨?_, ?_, 0, ?_⟩
  · show numData (List.replicate 4 (.empty : Slot (LargeData V))) ≤ 0
    rw [numData_replicate]
  · show (0 : Nat) < (List.replicate 4 (.empty : Slot (LargeData V))).length
    rw [List.length_replicate]
    omega
  · show (List.replicate 4 (.empty : Slot (LargeData V))).length = 4 * 2 ^ 0
    rw [List.length_replicate]
    decide

theorem ReachLarge.inv_large {V : Type} {m : LargeMap V} (h : ReachLarge m) : m.Inv := by
  obtain ⟨ops, hops⟩ := h
  exact runLarge_inv ops LargeMap.new LargeMap.newL_inv m hops

/-! ## Claim theorems -/

/-- C1: the claim states that after any insert/remove sequence from a fresh
`AdaptiveMap`, iteration agrees with a trusted reference container and
`len()` equals the number of iterated pairs. Already the two-operation
sequence `insert [1] 1; insert [1] 2` refutes the `len()` part: the embedded
adaptive map reports `len = 2` while both its own iteration and the reference
container hold the single pair `([1], 2)` — the small engine's insert bumps
`len` even when it overwrites an existing key. -/
theorem claimC1_len_diverges_from_reference :
    (runAdaptive hasher0 [AOp.ins [1] 1, AOp.ins [1] 2]
        (AdaptiveMap.new : AdaptiveMap Nat)).map
      (fun m => (m.len, m.iterPairs)) = some (2, [([1], 2)]) ∧
    refRun [AOp.ins [1] (1 : Nat), AOp.ins [1] 2] [] = [([1], 2)] ∧
    (2 : Nat) ≠ 1 := by
  refine ⟨by decide, by decide, by decide⟩

/-- C2: the claim states `len` always equals the number of `Data` slots and
in particular an overwriting insert leaves `len` unchanged. In all three
engines (small.rs:104, large.rs:98, common.rs:122) `insert` executes
`self.len += 1` unconditionally, so inserting the same key twice yields
`len = 2` with a single `Data` slot. -/
theorem claimC2_len_inflated_by_overwrite :
    (runSmall 8 hasher0 [SOp.ins [1] 1 10, SOp.ins [1] 1 20]
        (SmallMap.new : SmallMap Nat)).map
      (fun m => (m.len, numData m.bucket)) = some (2, 1) ∧
    (runLarge [SOp.ins (List.replicate 25 1) 1 10, SOp.ins (List.replicate 25 1) 1 20]
        (LargeMap.new : LargeMap Nat)).map
      (fun m => (m.len, numData m.bucket)) = some (2, 1) ∧
    ((CommonMap.insert siExact (CommonMap.new : CommonMap (LargeData Nat)) [1] 1 10 hasher0).bind
        (fun p => CommonMap.insert siExact p.2 [1] 1 20 hasher0)).map
      (fun p => (p.2.len, numData p.2.bucket)) = some (2, 1) ∧
    (2 : Nat) ≠ 1 := by
  refine ⟨by decide, by decide, by decide, by decide⟩

/-- C3: the claim states at most one `Data` slot ever holds a given key.
`lookup_or_free` stops at the *first* tombstone even when the key sits in a
later `Data` slot of the probe chain, so `insert [2]; insert [2,2];
remove [2]; insert [2,2]` (all probing from index 2) ends with two `Data`
slots whose key is `[2,2]`. -/
theorem claimC3_duplicate_key_slots :
    (runSmall 8 hasher0
        [SOp.ins [2] 2 1, SOp.ins [2, 2] 2 20, SOp.del [2] 2, SOp.ins [2, 2] 2 21]
        (SmallMap.new : SmallMap Nat)).map
      (fun m => countKeyData m.bucket [2, 2]) = some 2 ∧
    ¬ (2 : Nat) ≤ 1 := by
  refine ⟨by decide, by decide⟩

/-- C4: the claim states that in every map state, `insert(k, v1)` followed by
`insert(k, v2)` returns `Some v1` from the second call. In the run below the
key `K = [2,2,2,2,2,2,2,2]` (stored value 20) has a tombstone earlier in its
probe chain, so `insert K 21` fills the tombstone, creating a duplicate; the
growth resize then merges the duplicates with the *stale* slot processed
last, so the following `insert K 22` returns `some 20`, not `some 21`
(while `get` does return 22). -/
theorem claimC4_second_insert_returns_stale_value :
    ((runSmall 8 hasher0
        [SOp.ins [2] 2 1, SOp.ins [2, 2, 2, 2, 2, 2, 2, 2] 2 20, SOp.del [2] 2,
         SOp.ins [1] 1 2, SOp.ins [5] 5 3, SOp.ins [6] 6 4, SOp.ins [7] 7 5,
         SOp.ins [2, 2, 2, 2, 2, 2, 2, 2] 2 21]
        (SmallMap.new : SmallMap Nat)).bind
      (fun m => m.insert 8 [2, 2, 2, 2, 2, 2, 2, 2] 2 22 hasher0)).map
      (fun p => (p.1, p.2.get [2, 2, 2, 2, 2, 2, 2, 2] 2)) = some (some 20, some 22) ∧
    some (20 : Nat) ≠ some 21 := by
  refine ⟨by decide, by decide⟩

/-- C5: the claim states `try_insert` on a present key returns the stored
value and leaves it unmodified. With a tombstone ahead of the key's `Data`
slot in the probe chain, `try_insert [2,2] 22` reuses the tombstone instead:
it returns `none` (reporting a fresh insertion) and a subsequent `get`
returns the new value 22, not the stored 21. -/
theorem claimC5_try_insert_shadows_present_key :
    ((runSmall 8 hasher0 [SOp.ins [2] 2 1, SOp.tryIns [2, 2] 2 21, SOp.del [2] 2]
        (SmallMap.new : SmallMap Nat)).bind
      (fun m => m.tryInsert 8 [2, 2] 2 22 hasher0)).map
      (fun p => (p.1, p.2.get [2, 2] 2)) = some (none, some 22) ∧
    (some 22 : Option Nat) ≠ some 21 := by
  refine ⟨by decide, by decide⟩

/-- C6 counterexample: the claim says remove halves the capacity exactly when
`len > MIN_CAPACITY` and `len * 3 ≤ capacity`. Twelve distinct inserts reach
capacity 32 with `len = 12`; removing one key leaves `len = 11` with
`11 * 3 = 33 > 32`, yet the engine halves the capacity to 16, because the
code's test is `len * 3 / 2 ≤ capacity / 2` (i.e. `len * 3 ≤ capacity + 1`). -/
theorem claimC6_shrink_threshold_off_by_one :
    (runSmall 8 hasher0
        [SOp.ins [1] 1 0, SOp.ins [2] 2 0, SOp.ins [3] 3 0, SOp.ins [4] 4 0,
         SOp.ins [5] 5 0, SOp.ins [6] 6 0, SOp.ins [7] 7 0, SOp.ins [8] 8 0,
         SOp.ins [9] 9 0, SOp.ins [10] 10 0, SOp.ins [11] 11 0, SOp.ins [12] 12 0]
        (SmallMap.new : SmallMap Nat)).map
      (fun m => (m.bucket.length, m.len)) = some (32, 12) ∧
    (runSmall 8 hasher0
        [SOp.ins [1] 1 0, SOp.ins [2] 2 0, SOp.ins [3] 3 0, SOp.ins [4] 4 0,
         SOp.ins [5] 5 0, SOp.ins [6] 6 0, SOp.ins [7] 7 0, SOp.ins [8] 8 0,
         SOp.ins [9] 9 0, SOp.ins [10] 10 0, SOp.ins [11] 11 0, SOp.ins [12] 12 0,
         SOp.del [1] 1]
        (SmallMap.new : SmallMap Nat)).map
      (fun m => (m.bucket.length, m.len)) = some (16, 11) ∧
    ¬ ((12 - 1) * 3 ≤ 32) := by
  refine ⟨by decide, by decide, by decide⟩

/-- C6 (amended): in every engine state reachable from `new()`, capacity
strictly exceeds `len` and is a power of two of at least the class minimum
(8 for the small engine, 4 for the large engine); insert doubles capacity
exactly when `len * 3 ≥ capacity * 2` (with `len` counted after the insert's
increment), and remove halves capacity exactly when the removal hit,
`len > MIN_CAPACITY`, and `len * 3 ≤ capacity + 1` (the code's
`len * 3 / 2 ≤ capacity / 2`), never dropping below the minimum. -/
theorem claimC6_capacity_policy_amended :
    (∀ (V : Type) (N : Nat) (hasher : List Nat → Nat) (m : SmallMap V),
      ReachSmall N hasher m →
        m.len < m.bucket.length ∧ (∃ k, m.bucket.length = 8 * 2 ^ k) ∧
        8 ≤ m.bucket.length ∧
        (∀ key hash v r m2, m.insert N key hash v hasher = some (r, m2) →
          m2.bucket.length =
            (if (m.len + 1) * 3 ≥ m.bucket.length * 2 then m.bucket.length * 2
             else m.bucket.length)) ∧
        (∀ key hash r m2, m.remove key hash hasher = some (r, m2) →
          m2.bucket.length =
            (if r.isSome ∧ (m.len - 1 > 8 ∧ (m.len - 1) * 3 ≤ m.bucket.length + 1)
             then m.bucket.length / 2 else m.bucket.length))) ∧
    (∀ (V : Type) (m : LargeMap V),
      ReachLarge m →
        m.len < m.bucket.length ∧ (∃ k, m.bucket.length = 4 * 2 ^ k) ∧
        4 ≤ m.bucket.length ∧
        (∀ key hash v r m2, m.insert key hash v = some (r, m2) →
          m2.bucket.length =
            (if (m.len + 1) * 3 ≥ m.bucket.length * 2 then m.bucket.length * 2
             else m.bucket.length)) ∧
        (∀ key hash r m2, m.remove key hash = some (r, m2) →
          m2.bucket.length =
            (if r.isSome ∧ (m.len - 1 > 4 ∧ (m.len - 1) * 3 ≤ m.bucket.length + 1)
             then m.bucket.length / 2 else m.bucket.length))) := by
  constructor
  · intro V N hasher m hreach
    obtain ⟨hnd, hlen, k, hpow⟩ := ReachSmall.inv_small hreach
    have hp : 0 < 2 ^ k := Nat.pos_pow_of_pos k (by omega)
    refine ⟨hlen, ⟨k, hpow⟩, by omega, ?_, ?_⟩
    · intro key hash v r m2 heq
      by_cases hk : key.length ≤ N
      · obtain ⟨r0, m20, heq0, _, _, hcap0⟩ :=
          SmallMap.insertS_spec N m key hash v hasher ⟨hnd, hlen, k, hpow⟩ hk
        rw [heq0] at heq
        simp only [Option.some.injEq, Prod.mk.injEq] at heq
        obtain ⟨hr, hm⟩ := heq
        rw [← hm, hcap0]
        exact if_congr (by constructor <;> intro h <;> omega) rfl rfl
      · rw [SmallMap.insert_long_none N m key hash v hasher hk] at heq
        exact absurd heq (by simp)
    · intro key hash r m2 heq
      obtain ⟨r0, m20, heq0, _, hcap0, _⟩ :=
        SmallMap.removeS_spec m key hash hasher ⟨hnd, hlen, k, hpow⟩
      rw [heq0] at heq
      simp only [Option.some.injEq, Prod.mk.injEq] at heq
      obtain ⟨hr, hm⟩ := heq
      have heven : m.bucket.length % 2 = 0 := by omega
      rw [← hm, ← hr, hcap0]
      refine if_congr ?_ rfl rfl
      constructor
      · rintro ⟨ha, hb, hc⟩
        exact ⟨ha, hb, by omega⟩
      · rintro ⟨ha, hb, hc⟩
        exact ⟨ha, hb, by omega⟩
  · intro V m hreach
    obtain ⟨hnd, hlen, k, hpow⟩ := ReachLarge.inv_large hreach
    have hp : 0 < 2 ^ k := Nat.pos_pow_of_pos k (by omega)
    refine ⟨hlen, ⟨k, hpow⟩, by omega, ?_, ?_⟩
    · intro key hash v r m2 heq
      obtain ⟨r0, m20, heq0, _, _, hcap0⟩ :=
        LargeMap.insertL_spec m key hash v ⟨hnd, hlen, k, hpow⟩
      rw [heq0] at heq
      simp only [Option.some.injEq, Prod.mk.injEq] at heq
      obtain ⟨hr, hm⟩ := heq
      rw [← hm, hcap0]
      exact if_congr (by constructor <;> intro h <;> omega) rfl rfl
    · intro key hash r m2 heq
      obtain ⟨r0, m20, heq0, _, hcap0, _⟩ :=
        LargeMap.removeL_spec m key hash ⟨hnd, hlen, k, hpow⟩
      rw [heq0] at heq
      simp only [Option.some.injEq, Prod.mk.injEq] at heq
      obtain ⟨hr, hm⟩ := heq
      have heven : m.bucket.length % 2 = 0 := by omega
      rw [← hm, ← hr, hcap0]
      refine if_congr ?_ rfl rfl
      constructor
      · rintro ⟨ha, hb, hc⟩
        exact ⟨ha, hb, by omega⟩
      · rintro ⟨ha, hb, hc⟩
        exact ⟨ha, hb, by omega⟩

/-- Witness for C6 (amended), at the freshly constructed engines. -/
theorem claimC6_capacity_policy_amended_witness :
    (SmallMap.new : SmallMap Nat).len < (SmallMap.new : SmallMap Nat).bucket.length ∧
    (LargeMap.new : LargeMap Nat).len < (LargeMap.new : LargeMap Nat).bucket.length :=
  ⟨(claimC6_capacity_policy_amended.1 Nat 8 hasher0 SmallMap.new ⟨[], rfl⟩).1,
   (claimC6_capacity_policy_amended.2 Nat LargeMap.new ⟨[], rfl⟩).1⟩

/-- C7: in every engine state reachable from `new()` under the resize policy,
the insert-or-reuse probe (`lookup_or_free`, running capacity-many steps)
finds an `Empty`, `Deleted`, or matching slot, so `insert` and `try_insert`
never take the fatal branch (for the small engine, for keys fitting the
class's inline buffer); and when a full probe cycle does exhaust without a
usable slot, `insert` aborts fatally (returns the panic value `none` in this
embedding) rather than returning a wrong answer — shown structurally for the
small, large, and generic common engines. -/
theorem claimC7_probe_total_and_fatal_on_exhaustion :
    (∀ (V : Type) (N : Nat) (hasher : List Nat → Nat) (m : SmallMap V),
      ReachSmall N hasher m →
        (∀ key hash, (probeLookupOrFree smallKeyOf m.bucket key hash).isSome) ∧
        (∀ key hash v, key.length ≤ N →
          (m.insert N key hash v hasher).isSome ∧
          (m.tryInsert N key hash v hasher).isSome)) ∧
    (∀ (V : Type) (m : LargeMap V),
      ReachLarge m →
        (∀ key hash, (probeLookupOrFree largeKeyOf m.bucket key hash).isSome) ∧
        (∀ key hash v, (m.insert key hash v).isSome ∧ (m.tryInsert key hash v).isSome)) ∧
    (∀ (V : Type) (N : Nat) (m : SmallMap V) (key : List Nat) (hash : Nat) (v : V)
        (hasher : List Nat → Nat),
      probeLookupOrFree smallKeyOf m.bucket key hash = none →
        m.insert N key hash v hasher = none) ∧
    (∀ (V : Type) (m : LargeMap V) (key : List Nat) (hash : Nat) (v : V),
      probeLookupOrFree largeKeyOf m.bucket key hash = none →
        m.insert key hash v = none) ∧
    (∀ (D V : Type) (si : SlotImpl D V) (m : CommonMap D) (key : List Nat)
        (hash : Nat) (v : V) (hasher : List Nat → Nat),
      probeLookupOrFree si.key m.bucket key hash = none →
        CommonMap.insert si m key hash v hasher = none) := by
  refine ⟨?_, ?_, ?_, ?_, ?_⟩
  · intro V N hasher m hreach
    obtain ⟨hnd, hlen, k, hpow⟩ := ReachSmall.inv_small hreach
    constructor
    · intro key hash
      exact probeLookupOrFree_isSome smallKeyOf m.bucket key hash (by omega)
    · intro key hash v hk
      constructor
      · obtain ⟨r, m2, heq, _⟩ :=
          SmallMap.insertS_spec N m key hash v hasher ⟨hnd, hlen, k, hpow⟩ hk
        rw [heq]
        rfl
      · obtain ⟨r, m2, heq, _⟩ :=
          SmallMap.tryInsertS_spec N m key hash v hasher ⟨hnd, hlen, k, hpow⟩ hk
        rw [heq]
        rfl
  · intro V m hreach
    obtain ⟨hnd, hlen, k, hpow⟩ := ReachLarge.inv_large hreach
    constructor
    · intro key hash
      exact probeLookupOrFree_isSome largeKeyOf m.bucket key hash (by omega)
    · intro key hash v
      constructor
      · obtain ⟨r, m2, heq, _⟩ := LargeMap.insertL_spec m key hash v ⟨hnd, hlen, k, hpow⟩
        rw [heq]
        rfl
      · obtain ⟨r, m2, heq, _⟩ := LargeMap.tryInsertL_spec m key hash v ⟨hnd, hlen, k, hpow⟩
        rw [heq]
        rfl
  · intro V N m key hash v hasher hnone
    simp only [SmallMap.insert, hnone]
  · intro V m key hash v hnone
    simp only [LargeMap.insert, hnone]
  · intro D V si m key hash v hasher hnone
    simp only [CommonMap.insert, hnone]

/-- Witness for C7, at the freshly constructed engines. -/
theorem claimC7_probe_total_witness :
    (probeLookupOrFree smallKeyOf (SmallMap.new : SmallMap Nat).bucket [1] 1).isSome ∧
    ((SmallMap.new : SmallMap Nat).insert 8 [1] 1 0 hasher0).isSome ∧
    ((LargeMap.new : LargeMap Nat).tryInsert (List.replicate 25 1) 1 0).isSome :=
  ⟨(claimC7_probe_total_and_fatal_on_exhaustion.1 Nat 8 hasher0 SmallMap.new ⟨[], rfl⟩).1 [1] 1,
   ((claimC7_probe_total_and_fatal_on_exhaustion.1 Nat 8 hasher0 SmallMap.new ⟨[], rfl⟩).2
      [1] 1 0 (by decide)).1,
   ((claimC7_probe_total_and_fatal_on_exhaustion.2.1 Nat LargeMap.new ⟨[], rfl⟩).2
      (List.replicate 25 1) 1 0).2⟩

/-- C8: key classification is a pure function of byte length — `KeyRef::from`
maps length 0 to `None`, 1–8 to `S8`, 9–16 to `S16`, 17–24 to `S24` and
longer keys to `Large`, carrying the key bytes through unchanged. -/
theorem claimC8_classification_by_length :
    ∀ key : List Nat,
      (KeyRef.ofKey key).tag = specClassOfLen key.length ∧
      (KeyRef.ofKey key).key = key := by
  intro key
  by_cases h0 : key = []
  · subst h0
    exact ⟨rfl, rfl⟩
  · have hlen0 : ¬ key.length = 0 := by
      simpa [List.length_eq_zero] using h0
    by_cases h8 : key.length ≤ 8
    · simp [KeyRef.ofKey, specClassOfLen, h0, hlen0, h8, KeyRef.tag, KeyRef.key]
    · by_cases h16 : key.length ≤ 16
      · simp [KeyRef.ofKey, specClassOfLen, h0, hlen0, h8, h16, KeyRef.tag, KeyRef.key]
      · by_cases h24 : key.length ≤ 24
        · simp [KeyRef.ofKey, specClassOfLen, h0, hlen0, h8, h16, h24, KeyRef.tag, KeyRef.key]
        · simp [KeyRef.ofKey, specClassOfLen, h0, hlen0, h8, h16, h24, KeyRef.tag, KeyRef.key]

/-- C9: hashing a `KeyRef` is independent of its size class — for every
hasher, the hash of any `KeyRef` variant equals the hash of the plain byte
slice it carries (the empty slice for `None`). -/
theorem claimC9_hash_ignores_class :
    ∀ (hashBytes : List Nat → Nat) (kr : KeyRef),
      hashKeyRef hashBytes kr = hashBytes kr.key := by
  intro hashBytes kr
  cases kr <;> rfl

/-- C10: inserting the zero-length key stores the value in the dedicated
empty-key slot: the classifier maps `[]` to `KeyRef::None`, the result does
not depend on the supplied hash or on the hasher (no hashing is performed),
the previous empty-key value is returned, all four size-class tables are left
untouched, and a subsequent `get` on the empty key returns the value. -/
theorem claimC10_empty_key_isolated :
    ∀ (V : Type) (m : AdaptiveMap V) (h1 h2 : Nat) (x : V)
      (hasher1 hasher2 : List Nat → Nat),
      KeyRef.ofKey [] = KeyRef.none ∧
      m.insertHashed .none h1 x hasher1
        = some (m.noneKey, ⟨some x, m.small8, m.small16, m.small24, m.large⟩) ∧
      m.insertHashed .none h1 x hasher1 = m.insertHashed .none h2 x hasher2 ∧
      AdaptiveMap.getHashed ⟨some x, m.small8, m.small16, m.small24, m.large⟩ .none h2
        = some x := by
  intro V m h1 h2 x hasher1 hasher2
  exact ⟨rfl, rfl, rfl, rfl⟩

end Saha
